import Mathlib

set_option linter.unusedVariables false

/-! Verification of the submission/completion engine of a Linux kernel-AIO
binding library. The definitions below shallowly embed the engine state and
the functions of `src/lib.rs`, `src/wait_future.rs`, `src/requests/mod.rs`
and `src/eventfd.rs`; the theorems settle the specification claims. -/

/-- State of a `futures::channel::oneshot` channel as both endpoints see it:
`txAlive` records whether the `Sender` is still live, `complete` is the
shared completion flag (set by `Receiver::close`, by a successful send, and
by dropping either endpoint), and `value` is the queued message. -/
structure Oneshot where
  txAlive : Bool
  complete : Bool
  value : Option Int
deriving DecidableEq, Repr

/-- Model of `oneshot::Receiver::close`: sets the shared `complete` flag, so
that a later send fails. -/
def Oneshot.close (c : Oneshot) : Oneshot :=
  { c with complete := true }

/-- Model of `oneshot::Sender::send`: fails exactly when the channel is
already complete (receiver closed); otherwise the value is queued. The
sender is consumed either way. -/
def Oneshot.send (c : Oneshot) (v : Int) : Bool × Oneshot :=
  if c.complete then (false, { c with txAlive := false })
  else (true, { c with txAlive := false, complete := true, value := some v })

/-- Model of `oneshot::Receiver::try_recv().is_ok()`: once the channel is
complete this is `Ok(Some v)` exactly when a value is queued and
`Err(Canceled)` otherwise; before completion it is `Ok(None)`. -/
def Oneshot.tryRecvIsOk (c : Oneshot) : Bool :=
  if c.complete then c.value.isSome else true

/-- Outcome of polling a `oneshot::Receiver`. -/
inductive RxPoll where
  | pending
  | ok (v : Int)
  | canceled
deriving DecidableEq, Repr

/-- Model of polling a `oneshot::Receiver`: pending until the channel is
complete, then either the queued value or cancellation. -/
def Oneshot.pollRx (c : Oneshot) : RxPoll :=
  if c.complete then
    match c.value with
    | some v => .ok v
    | none => .canceled
  else .pending

/-- Error kinds surfaced by `submit_request`, as `AioCommandError` is
constructed in `src/lib.rs`: `AioStopped` when the weak context reference
cannot be upgraded, `CapacityExceeded` when no ready slot is available with
the gate disabled, `IoSubmit` carrying the `io_submit` errno, and
`BadResult` carrying the negated completion code. -/
inductive AioCommandError where
  | AioStopped
  | CapacityExceeded
  | IoSubmit (errno : Int)
  | BadResult (errno : Int)
deriving DecidableEq, Repr

instance {ε α : Type} [DecidableEq ε] [DecidableEq α] : DecidableEq (Except ε α) := fun x y =>
  match x, y with
  | .error a, .error b =>
    if h : a = b then .isTrue (by rw [h]) else .isFalse (by simp [h])
  | .error _, .ok _ => .isFalse (by simp)
  | .ok _, .error _ => .isFalse (by simp)
  | .ok a, .ok b =>
    if h : a = b then .isTrue (by rw [h]) else .isFalse (by simp [h])

/-- Observable outcome of one call to `AioWaitFuture::poll`. -/
inductive WaitPoll where
  | pending
  | result (r : Except AioCommandError Int)
  | panicked
deriving DecidableEq, Repr

/-- Embedding of `Future::poll for AioWaitFuture` (`src/wait_future.rs`
lines 69-76): stay pending until the one-shot resolves, yield the completion
value on success, and panic on the `expect` when the one-shot was canceled.
No error value is ever constructed here. -/
def AioWaitFuture.pollStep (c : Oneshot) : WaitPoll :=
  match c.pollRx with
  | .pending => .pending
  | .ok v => .result (.ok v)
  | .canceled => .panicked

/-- Per-slot state of one pool `Request` record (`src/requests/mod.rs`):
whether the kernel currently holds the slot's control block (successful
`io_submit` whose event has not yet been harvested), whether the slot holds
the buffer lifetime extender (`buf_lifetime_extender`), whether the
submitted command carried a buffer, and the slot's one-shot completion
channel (`completed_tx` paired with the waiter's receiver). -/
structure Slot where
  kernel : Bool
  token : Bool
  hasBuf : Bool
  chan : Oneshot
deriving DecidableEq, Repr

instance : Inhabited Slot :=
  ⟨⟨false, false, false, ⟨false, false, none⟩⟩⟩

/-- Total read of the per-slot record at index `i`; out-of-range reads give
the idle default (every use is in range). -/
def slotGet (l : List Slot) (i : Nat) : Slot := l.getD i default

/-- The slot pool of `src/requests/mod.rs`: the `ready_pool` and
`outstanding` intrusive lists, represented by the stable indices of the
slots they hold. -/
structure Requests where
  ready_pool : List Nat
  outstanding : List Nat
deriving DecidableEq, Repr

/-- `Requests::take`: pops the front of the ready list; `none` when empty. -/
def Requests.take (r : Requests) : Option (Nat × Requests) :=
  match h : r.ready_pool with
  | [] => none
  | i :: rest => some (i, { r with ready_pool := rest })

/-- `Requests::return_in_flight_to_ready`: pushes the slot onto the back of
the ready list. -/
def Requests.return_in_flight_to_ready (r : Requests) (i : Nat) : Requests :=
  { r with ready_pool := r.ready_pool ++ [i] }

/-- `Requests::move_to_outstanding`: pushes the slot onto the back of the
outstanding list. -/
def Requests.move_to_outstanding (r : Requests) (i : Nat) : Requests :=
  { r with outstanding := r.outstanding ++ [i] }

/-- `Requests::return_outstanding_to_ready`: locates the slot by its stable
address in the outstanding list and moves it to the ready list; `none`
models the `expect` panic when the slot is not there. -/
def Requests.return_outstanding_to_ready (r : Requests) (i : Nat) : Option Requests :=
  if i ∈ r.outstanding then
    some { ready_pool := r.ready_pool ++ [i], outstanding := r.outstanding.erase i }
  else none

/-- Shared state of a `GenericAioContextInner` (`src/lib.rs`): the optional
capacity gate (the `capacity` semaphore's permit count), the slot pool, and
the per-slot records. -/
structure AioState where
  gate : Option Nat
  req : Requests
  slots : List Slot
deriving DecidableEq, Repr

/-- Result of the synchronous phase of `submit_request`. -/
inductive SubmitPhase where
  | failed (e : AioCommandError)
  | submitted (slot : Nat)
deriving DecidableEq, Repr

/-- Embedding of `GenericAioContextHandle::submit_request` (`src/lib.rs`
lines 204-261) from after the weak-reference upgrade to just before the wait
future is awaited. `hasBuf` says whether the command carries a buffer,
`ioSubmitRet` is the kernel's `io_submit` return value and `errno` the OS
error it left behind. Acquiring the gate permit decrements `gate`; on the
`io_submit` failure path the buffer token is cleared, the slot is pushed
back to ready and the permit is released again. -/
def submit_request_phase (st : AioState) (hasBuf : Bool) (ioSubmitRet errno : Int) :
    AioState × SubmitPhase :=
  let st1 : AioState := { st with gate := st.gate.map (· - 1) }
  match st1.req.take with
  | none => (st1, .failed .CapacityExceeded)
  | some (i, req') =>
    if ioSubmitRet = 1 then
      ({ st1 with req := req',
                  slots := st1.slots.set i
                    { kernel := true, token := hasBuf, hasBuf := hasBuf,
                      chan := ⟨true, false, none⟩ } },
       .submitted i)
    else
      ({ st1 with req := req'.return_in_flight_to_ready i,
                  slots := st1.slots.set i
                    { kernel := false, token := false, hasBuf := hasBuf,
                      chan := ⟨true, true, none⟩ },
                  gate := st1.gate.map (· + 1) },
       .failed (.IoSubmit errno))

/-- Embedding of the completion-loop body for one harvested event
(`src/lib.rs` lines 360-381): deliver `res` to the slot's waiter through
`send_to_waiter`; when the send fails (receiver closed) drop the buffer
token, move the slot from the outstanding list back to ready, and release
one gate permit. The `none` branch of `return_outstanding_to_ready` (a
panic in the code) is modelled as leaving the state unchanged; the protocol
invariant shows it is never taken. -/
def completion_loop_event (st : AioState) (i : Nat) (res : Int) : AioState :=
  let s := slotGet st.slots i
  let sent := (s.chan.send res).1
  let c1 := (s.chan.send res).2
  if sent then
    { st with slots := st.slots.set i { s with kernel := false, chan := c1 } }
  else
    match st.req.return_outstanding_to_ready i with
    | some req' =>
      { st with slots := st.slots.set i
                  { s with kernel := false, chan := c1, token := false },
                req := req',
                gate := st.gate.map (· + 1) }
    | none => st

/-- Embedding of the success path of `AioWaitFuture::poll` together with
`AioWaitFuture::return_request_to_pool` (`src/wait_future.rs` lines 36-44
and 69-75): when a completion value is queued, consume it, drop the buffer
token, push the slot back onto the ready list and release one gate permit.
With no value queued the future stays pending and nothing changes. -/
def AioWaitFuture.pollResolve (st : AioState) (i : Nat) : AioState :=
  let s := slotGet st.slots i
  match s.chan.value with
  | none => st
  | some _ =>
    { st with slots := st.slots.set i
                { s with chan := { s.chan with value := none }, token := false },
              req := st.req.return_in_flight_to_ready i,
              gate := st.gate.map (· + 1) }

/-- Embedding of `Drop for AioWaitFuture` (`src/wait_future.rs` lines
86-100) for a future dropped while it still holds its request: close the
receiver; if `try_recv` now reports a queued value, reclaim the slot exactly
as the success path does; otherwise park the slot on the outstanding list
for the completion loop to reclaim. -/
def AioWaitFuture.dropPending (st : AioState) (i : Nat) : AioState :=
  let s := slotGet st.slots i
  let c := s.chan.close
  if c.tryRecvIsOk then
    { st with slots := st.slots.set i
                { s with chan := { c with value := none }, token := false },
              req := st.req.return_in_flight_to_ready i,
              gate := st.gate.map (· + 1) }
  else
    { st with slots := st.slots.set i { s with chan := c },
              req := st.req.move_to_outstanding i }

/-- Embedding of `GenericAioContextHandle::available_slots` (`src/lib.rs`
lines 193-197). The argument is the result of upgrading the handle's weak
reference: `none` when the context has already been dropped. -/
def GenericAioContextHandle.available_slots (upgraded : Option AioState) : Option Nat :=
  match upgraded with
  | none => none
  | some i => i.gate

/-- Embedding of the tail of `submit_request` (`src/lib.rs` lines 265-273):
the awaited completion code is mapped onto the user-visible result; a
negative code becomes a `BadResult` error built from the negated errno. -/
def submit_request_map_code (code : Int) : Except AioCommandError Nat :=
  if code < 0 then .error (.BadResult (-code)) else .ok code.toNat

/-- End-to-end delivery of one completion value to a live waiter: the
completion loop sends `res` through the slot's fresh one-shot
(`send_to_waiter`), the wait future polls its receiver, and `submit_request`
maps the code. `none` stands for outcomes in which no value is delivered. -/
def delivered_to_caller (res : Int) : Option (Except AioCommandError Nat) :=
  let sent := (Oneshot.send ⟨true, false, none⟩ res).1
  let c1 := (Oneshot.send ⟨true, false, none⟩ res).2
  if sent then
    match AioWaitFuture.pollStep c1 with
    | .result (.ok v) => some (submit_request_map_code v)
    | _ => none
  else none

/-- Result of the non-blocking 8-byte read performed by
`EventFd::poll_next`: `rc` bytes transferred yielding the 64-bit counter
`value`, a would-block, or an OS error. -/
inductive EventFdRead where
  | ok (rc : Nat) (value : Nat)
  | wouldBlock
  | err (e : Int)
deriving DecidableEq, Repr

/-- Observable outcome of `EventFd::poll_next`. -/
inductive EventFdPoll where
  | pending
  | item (v : Nat)
  | itemErr (e : Int)
  | panicked
deriving DecidableEq, Repr

/-- Embedding of `Stream::poll_next for EventFd` (`src/eventfd.rs` lines
101-136) once read readiness was observed: a read transferring anything but
8 bytes panics, a counter of zero fails the assertion, a would-block re-arms
readiness and stays pending, and any other OS error is yielded as a stream
error. -/
def EventFd.poll_next (r : EventFdRead) : EventFdPoll :=
  match r with
  | .ok rc v => if rc ≠ 8 then .panicked else if v = 0 then .panicked else .item v
  | .wouldBlock => .pending
  | .err e => .itemErr e

/-- Initial engine state built by `GenericAioContextInner::new`: `nr` idle
slots, all on the ready list, and the gate holding `nr` permits when
enabled. -/
def initState (nr : Nat) (useSemaphore : Bool) : AioState :=
  { gate := if useSemaphore then some nr else none,
    req := { ready_pool := List.range nr, outstanding := [] },
    slots := List.replicate nr default }

/-- One atomic step of the submission/cancellation/completion protocol. The
guards record what the surrounding Rust code guarantees: a gate permit is
acquired before submission proceeds; `poll` of a live future and `drop` of a
pending future act on the slot that future owns, which sits on neither pool
list; the kernel produces exactly one completion event per slot it holds. -/
inductive Step : AioState → AioState → Prop
  | submitOk (st : AioState) (hasBuf : Bool)
      (hgate : ∀ p, st.gate = some p → 0 < p) :
      Step st (submit_request_phase st hasBuf 1 0).1
  | submitFail (st : AioState) (hasBuf : Bool) (ret errno : Int)
      (hret : ret ≠ 1)
      (hgate : ∀ p, st.gate = some p → 0 < p) :
      Step st (submit_request_phase st hasBuf ret errno).1
  | harvest (st : AioState) (i : Nat) (res : Int)
      (hi : i < st.slots.length)
      (hk : (slotGet st.slots i).kernel = true) :
      Step st (completion_loop_event st i res)
  | resolveOk (st : AioState) (i : Nat)
      (hi : i < st.slots.length)
      (hr : i ∉ st.req.ready_pool) (ho : i ∉ st.req.outstanding) :
      Step st (AioWaitFuture.pollResolve st i)
  | cancelDrop (st : AioState) (i : Nat)
      (hi : i < st.slots.length)
      (hr : i ∉ st.req.ready_pool) (ho : i ∉ st.req.outstanding) :
      Step st (AioWaitFuture.dropPending st i)

/-- Engine states reachable from a freshly created context. -/
def Reachable (nr : Nat) (useSemaphore : Bool) (st : AioState) : Prop :=
  Relation.ReflTransGen Step (initState nr useSemaphore) st

/-- State for the pool-accounting machine of claim C8: the two pool lists
together with the multiset of slots currently held by live operations (the
`Box<Request>` values owned by wait futures or by `submit_request` itself). -/
structure RState where
  req : Requests
  held : List Nat
deriving DecidableEq, Repr

/-- An arbitrary interleaving of the four `Requests` operations, each applied
only in the way Rust ownership permits: `take` hands the popped slot to an
operation, the two return operations give back a slot the caller actually
holds, and `return_outstanding_to_ready` succeeds (its `expect` would panic
otherwise). -/
inductive RStep : RState → RState → Prop
  | take (s : RState) (i : Nat) (req' : Requests)
      (h : s.req.take = some (i, req')) :
      RStep s ⟨req', i :: s.held⟩
  | retInFlight (s : RState) (i : Nat) (h : i ∈ s.held) :
      RStep s ⟨s.req.return_in_flight_to_ready i, s.held.erase i⟩
  | moveOut (s : RState) (i : Nat) (h : i ∈ s.held) :
      RStep s ⟨s.req.move_to_outstanding i, s.held.erase i⟩
  | retOut (s : RState) (i : Nat) (req' : Requests)
      (h : s.req.return_outstanding_to_ready i = some req') :
      RStep s ⟨req', s.held⟩

/-- Pool states reachable from a pool of `nr` fresh slots. -/
def RReachable (nr : Nat) (s : RState) : Prop :=
  Relation.ReflTransGen RStep ⟨{ ready_pool := List.range nr, outstanding := [] }, []⟩ s

/-- The protocol invariant of the submission/completion engine. A slot index
below the pool size is on the ready list, on the outstanding list, or held
by a live operation; the per-slot record then has the shape the
corresponding code path leaves behind, the two lists never share or repeat a
slot, and the gate (when enabled) holds exactly one permit per ready slot. -/
structure ProtocolInv (nr : Nat) (g : Bool) (st : AioState) : Prop where
  len_eq : st.slots.length = nr
  ready_lt : ∀ i ∈ st.req.ready_pool, i < nr
  out_lt : ∀ i ∈ st.req.outstanding, i < nr
  nodup : (st.req.ready_pool ++ st.req.outstanding).Nodup
  gate_on : st.gate.isSome = g
  gate_count : ∀ p, st.gate = some p → p = st.req.ready_pool.length
  ready_slot : ∀ i ∈ st.req.ready_pool, (slotGet st.slots i).kernel = false
  out_slot : ∀ i ∈ st.req.outstanding,
      (slotGet st.slots i).kernel = true ∧
      (slotGet st.slots i).chan = ⟨true, true, none⟩ ∧
      (slotGet st.slots i).token = (slotGet st.slots i).hasBuf
  held_slot : ∀ i, i < nr → i ∉ st.req.ready_pool → i ∉ st.req.outstanding →
      (slotGet st.slots i).token = (slotGet st.slots i).hasBuf ∧
      ((slotGet st.slots i).kernel = true ∧
         (slotGet st.slots i).chan = ⟨true, false, none⟩ ∨
       (slotGet st.slots i).kernel = false ∧
         (slotGet st.slots i).chan.txAlive = false ∧
         (slotGet st.slots i).chan.complete = true ∧
         (slotGet st.slots i).chan.value.isSome = true)

theorem getD_set_self {α : Type} [Inhabited α] (l : List α) (i : Nat) (a : α)
    (h : i < l.length) : (l.set i a).getD i default = a := by
  induction l generalizing i with
  | nil => simp at h
  | cons x xs ih =>
    cases i with
    | zero => rfl
    | succ n => exact ih n (by simpa using h)

theorem getD_set_ne {α : Type} [Inhabited α] (l : List α) (i j : Nat) (a : α)
    (h : i ≠ j) : (l.set i a).getD j default = l.getD j default := by
  induction l generalizing i j with
  | nil => rfl
  | cons x xs ih =>
    cases i with
    | zero =>
      cases j with
      | zero => exact absurd rfl h
      | succ m => rfl
    | succ n =>
      cases j with
      | zero => rfl
      | succ m => exact ih n m (by omega)

theorem take_of_nil (r : Requests) (h : r.ready_pool = []) : r.take = none := by
  unfold Requests.take
  split
  · rfl
  · rename_i i rest heq
    rw [h] at heq
    exact absurd heq (by simp)

theorem take_of_cons (r : Requests) (i : Nat) (rest : List Nat)
    (h : r.ready_pool = i :: rest) :
    r.take = some (i, { r with ready_pool := rest }) := by
  unfold Requests.take
  split
  · rename_i heq
    rw [h] at heq
    exact absurd heq (by simp)
  · rename_i j rest' heq
    rw [h] at heq
    cases heq
    rfl

theorem slotGet_set_self (l : List Slot) (i : Nat) (x : Slot) (h : i < l.length) :
    slotGet (l.set i x) i = x := getD_set_self l i x h

theorem slotGet_set_ne (l : List Slot) (i j : Nat) (x : Slot) (h : i ≠ j) :
    slotGet (l.set i x) j = slotGet l j := getD_set_ne l i j x h

/-- C1: dropping a still-pending wait future first closes the one-shot
receiver (the slot's channel ends up complete); if a completion value was
already queued the slot is reclaimed exactly as on the success path (buffer
token dropped, `return_in_flight_to_ready`, one gate permit released); in
every other case the slot is pushed onto the outstanding list and the ready
list, the gate and the buffer token are untouched. -/
theorem wait_future_drop_cancellation (st : AioState) (i : Nat)
    (hi : i < st.slots.length) :
    (slotGet (AioWaitFuture.dropPending st i).slots i).chan.complete = true ∧
    ((slotGet st.slots i).chan.value.isSome = true →
      (AioWaitFuture.dropPending st i).req = st.req.return_in_flight_to_ready i ∧
      (AioWaitFuture.dropPending st i).gate = st.gate.map (· + 1) ∧
      (slotGet (AioWaitFuture.dropPending st i).slots i).token = false) ∧
    ((slotGet st.slots i).chan.value = none →
      (AioWaitFuture.dropPending st i).req = st.req.move_to_outstanding i ∧
      (AioWaitFuture.dropPending st i).req.ready_pool = st.req.ready_pool ∧
      (AioWaitFuture.dropPending st i).gate = st.gate ∧
      (slotGet (AioWaitFuture.dropPending st i).slots i).token =
        (slotGet st.slots i).token) := by
  by_cases hv : (slotGet st.slots i).chan.value.isSome
  · obtain ⟨v, hval⟩ := Option.isSome_iff_exists.mp hv
    have hd : AioWaitFuture.dropPending st i =
        { st with slots := st.slots.set i
                    { slotGet st.slots i with
                        chan := { (slotGet st.slots i).chan.close with value := none },
                        token := false },
                  req := st.req.return_in_flight_to_ready i,
                  gate := st.gate.map (· + 1) } := by
      simp [AioWaitFuture.dropPending, Oneshot.tryRecvIsOk, Oneshot.close, hval]
    refine ⟨?_, fun _ => ⟨?_, ?_, ?_⟩, fun hn => by rw [hn] at hv; simp at hv⟩
    · rw [hd, slotGet_set_self _ _ _ hi]
      simp [Oneshot.close]
    · rw [hd]
    · rw [hd]
    · rw [hd, slotGet_set_self _ _ _ hi]
  · have hvn : (slotGet st.slots i).chan.value = none :=
      Option.not_isSome_iff_eq_none.mp hv
    have hd : AioWaitFuture.dropPending st i =
        { st with slots := st.slots.set i
                    { slotGet st.slots i with
                        chan := (slotGet st.slots i).chan.close },
                  req := st.req.move_to_outstanding i } := by
      simp [AioWaitFuture.dropPending, Oneshot.tryRecvIsOk, Oneshot.close, hvn]
    refine ⟨?_, fun hs => absurd hs hv, fun _ => ⟨?_, ?_, ?_, ?_⟩⟩
    · rw [hd, slotGet_set_self _ _ _ hi]
      simp [Oneshot.close]
    · rw [hd]
    · rw [hd]
      rfl
    · rw [hd]
    · rw [hd, slotGet_set_self _ _ _ hi]

/-- Witness for C1 at two concrete one-slot states: one with a completion
value queued (reclaimed to ready) and one without (parked outstanding). -/
theorem wait_future_drop_cancellation_witness :
    (AioWaitFuture.dropPending
        ⟨some 0, ⟨[], []⟩, [⟨false, true, true, ⟨false, true, some 7⟩⟩]⟩ 0).req =
      Requests.return_in_flight_to_ready ⟨[], []⟩ 0 ∧
    (AioWaitFuture.dropPending
        ⟨some 0, ⟨[], []⟩, [⟨true, true, true, ⟨true, false, none⟩⟩]⟩ 0).req =
      Requests.move_to_outstanding ⟨[], []⟩ 0 :=
  ⟨((wait_future_drop_cancellation _ 0 (by decide)).2.1 (by decide)).1,
   ((wait_future_drop_cancellation _ 0 (by decide)).2.2 (by decide)).1⟩

/-- C4: with the capacity gate disabled and the ready list empty,
`submit_request` fails with `CapacityExceeded` and the engine state is
returned exactly as it was: no slot is consumed, no control block reaches
the kernel, no completion will arrive. -/
theorem submit_capacity_exceeded_no_side_effects (st : AioState) (hasBuf : Bool)
    (ret errno : Int) (hgate : st.gate = none) (hready : st.req.ready_pool = []) :
    submit_request_phase st hasBuf ret errno = (st, .failed .CapacityExceeded) := by
  obtain ⟨g, r, s⟩ := st
  replace hgate : g = none := hgate
  subst hgate
  have ht : Requests.take r = none := take_of_nil r hready
  simp [submit_request_phase, ht]

/-- Witness for C4 at a concrete gate-less empty-pool state. -/
theorem submit_capacity_exceeded_witness :
    submit_request_phase ⟨none, ⟨[], []⟩, []⟩ true 1 0 =
      (⟨none, ⟨[], []⟩, []⟩, .failed .CapacityExceeded) :=
  submit_capacity_exceeded_no_side_effects _ true 1 0 rfl rfl

/-- C5: when `io_submit` returns anything but 1, the failure-undo path runs
before the error is surfaced: the error carries the `io_submit` errno, the
slot's buffer token is cleared, the slot is pushed back onto the ready list
(so the ready list is a permutation of what it was), the outstanding list is
untouched, and the gate permit count ends exactly where it started. -/
theorem submit_request_failure_undo (st : AioState) (hasBuf : Bool)
    (ret errno : Int) (i : Nat) (rest : List Nat)
    (hready : st.req.ready_pool = i :: rest)
    (hi : i < st.slots.length)
    (hret : ret ≠ 1)
    (hgate : ∀ p, st.gate = some p → 0 < p) :
    (submit_request_phase st hasBuf ret errno).2 = .failed (.IoSubmit errno) ∧
    (submit_request_phase st hasBuf ret errno).1.req.ready_pool = rest ++ [i] ∧
    ((submit_request_phase st hasBuf ret errno).1.req.ready_pool).Perm
      st.req.ready_pool ∧
    (submit_request_phase st hasBuf ret errno).1.req.outstanding =
      st.req.outstanding ∧
    (submit_request_phase st hasBuf ret errno).1.gate = st.gate ∧
    (slotGet (submit_request_phase st hasBuf ret errno).1.slots i).token = false ∧
    (slotGet (submit_request_phase st hasBuf ret errno).1.slots i).kernel = false := by
  have ht := take_of_cons st.req i rest hready
  have hgg : (st.gate.map (· - 1)).map (· + 1) = st.gate := by
    cases hg : st.gate with
    | none => rfl
    | some p =>
      have := hgate p hg
      simp only [Option.map_some']
      congr 1
      omega
  have hs : submit_request_phase st hasBuf ret errno =
      ({ gate := (st.gate.map (· - 1)).map (· + 1),
         req := { ready_pool := rest ++ [i], outstanding := st.req.outstanding },
         slots := st.slots.set i
           { kernel := false, token := false, hasBuf := hasBuf,
             chan := ⟨true, true, none⟩ } },
       .failed (.IoSubmit errno)) := by
    simp [submit_request_phase, ht, hret, Requests.return_in_flight_to_ready]
  refine ⟨?_, ?_, ?_, ?_, ?_, ?_, ?_⟩
  · rw [hs]
  · rw [hs]
  · rw [hs]
    rw [hready]
    exact List.perm_append_singleton i rest
  · rw [hs]
  · rw [hs]
    exact hgg
  · rw [hs, slotGet_set_self _ _ _ hi]
  · rw [hs, slotGet_set_self _ _ _ hi]

/-- Witness for C5 at a concrete one-slot state with `io_submit` returning
-1. -/
theorem submit_request_failure_undo_witness :
    (submit_request_phase ⟨some 1, ⟨[0], []⟩, [default]⟩ true (-1) 22).2 =
      .failed (.IoSubmit 22) ∧
    (submit_request_phase ⟨some 1, ⟨[0], []⟩, [default]⟩ true (-1) 22).1.gate =
      some 1 :=
  ⟨(submit_request_failure_undo _ true (-1) 22 0 [] rfl (by decide) (by decide)
      (by intro p hp; cases hp; decide)).1,
   (submit_request_failure_undo _ true (-1) 22 0 [] rfl (by decide) (by decide)
      (by intro p hp; cases hp; decide)).2.2.2.2.1⟩

/-- C6 counterexample: with the one-shot canceled (sender gone, nothing
queued — the state a still-pending waiter would see once its channel died),
`AioWaitFuture::poll` panics on its `expect` instead of yielding a `Stopped`
error. -/
theorem wait_future_poll_panics_not_stopped :
    AioWaitFuture.pollStep ⟨false, true, none⟩ = .panicked ∧
    AioWaitFuture.pollStep ⟨false, true, none⟩ ≠ .result (.error .AioStopped) := by
  decide

/-- C6 amended: `AioWaitFuture::poll` never yields an error value at all;
each poll outcome is pending, a panic, or `Ok`; in particular a canceled
one-shot makes the next poll panic ("AIO stopped while AioWaitFuture was not
completed") rather than return a `Stopped` error. -/
theorem wait_future_poll_outcomes :
    AioWaitFuture.pollStep ⟨false, true, none⟩ = .panicked ∧
    ∀ c : Oneshot, AioWaitFuture.pollStep c = .pending ∨
      AioWaitFuture.pollStep c = .panicked ∨
      ∃ v, AioWaitFuture.pollStep c = .result (.ok v) := by
  refine ⟨by decide, ?_⟩
  intro c
  by_cases h : c.complete
  · cases hv : c.value with
    | some v =>
      exact Or.inr (Or.inr ⟨v, by simp [AioWaitFuture.pollStep, Oneshot.pollRx, h, hv]⟩)
    | none =>
      exact Or.inr (Or.inl (by simp [AioWaitFuture.pollStep, Oneshot.pollRx, h, hv]))
  · exact Or.inl (by simp [AioWaitFuture.pollStep, Oneshot.pollRx, h])

/-- C7: a completion harvested for a live waiter travels unchanged through
the one-shot and the wait future; `submit_request` then yields
`Ok(res as unsigned)` for non-negative `res` and a `BadResult` error whose
errno is the negation of `res` for negative `res`. -/
theorem completion_result_semantics (res : Int) :
    (0 ≤ res → delivered_to_caller res = some (.ok res.toNat)) ∧
    (res < 0 → delivered_to_caller res = some (.error (.BadResult (-res)))) := by
  have hd : delivered_to_caller res = some (submit_request_map_code res) := by
    simp [delivered_to_caller, Oneshot.send, AioWaitFuture.pollStep, Oneshot.pollRx]
  constructor
  · intro h
    rw [hd]
    simp only [submit_request_map_code]
    rw [if_neg (by omega)]
  · intro h
    rw [hd]
    simp only [submit_request_map_code]
    rw [if_pos h]

/-- Witness for C7 at a positive and a negative completion code. -/
theorem completion_result_semantics_witness :
    delivered_to_caller 5 = some (.ok 5) ∧
    delivered_to_caller (-2) = some (.error (.BadResult 2)) :=
  ⟨(completion_result_semantics 5).1 (by decide),
   (completion_result_semantics (-2)).2 (by decide)⟩

/-- C9: a successful 8-byte read of a non-zero counter makes the event
notifier yield the whole counter as the next stream element; a read
transferring fewer than 8 bytes panics; a counter read of zero trips the
assertion. -/
theorem eventfd_poll_next_semantics (rc v : Nat) :
    (rc = 8 → v ≠ 0 → EventFd.poll_next (.ok rc v) = .item v) ∧
    (rc < 8 → EventFd.poll_next (.ok rc v) = .panicked) ∧
    (v = 0 → EventFd.poll_next (.ok rc v) = .panicked) := by
  refine ⟨?_, ?_, ?_⟩
  · intro h1 h2
    simp [EventFd.poll_next, h1, h2]
  · intro h
    have h8 : rc ≠ 8 := by omega
    simp [EventFd.poll_next, h8]
  · intro h
    subst h
    by_cases h8 : rc = 8
    · simp [EventFd.poll_next, h8]
    · simp [EventFd.poll_next, h8]

/-- Witness for C9 at a good read, a short read and a zero counter. -/
theorem eventfd_poll_next_witness :
    EventFd.poll_next (.ok 8 3) = .item 3 ∧
    EventFd.poll_next (.ok 4 1) = .panicked ∧
    EventFd.poll_next (.ok 8 0) = .panicked :=
  ⟨(eventfd_poll_next_semantics 8 3).1 rfl (by decide),
   (eventfd_poll_next_semantics 4 1).2.1 (by decide),
   (eventfd_poll_next_semantics 8 0).2.2 rfl⟩

/-- C10: `available_slots` returns `none` in exactly two cases — the context
is already gone (the weak upgrade failed) or the gate was disabled at
creation — and otherwise returns the gate's current permit count. It is a
total function of the upgraded reference: no panic, no blocking. -/
theorem available_slots_characterization (o : Option AioState) :
    (GenericAioContextHandle.available_slots o = none ↔
      o = none ∨ ∃ st, o = some st ∧ st.gate = none) ∧
    (∀ st p, o = some st → st.gate = some p →
      GenericAioContextHandle.available_slots o = some p) := by
  constructor
  · cases o with
    | none => simp [GenericAioContextHandle.available_slots]
    | some st => simp [GenericAioContextHandle.available_slots]
  · intro st p ho hg
    subst ho
    simp [GenericAioContextHandle.available_slots, hg]

/-- Witness for C10 at a live context with three permits. -/
theorem available_slots_characterization_witness :
    GenericAioContextHandle.available_slots (some ⟨some 3, ⟨[], []⟩, []⟩) = some 3 :=
  (available_slots_characterization _).2 _ 3 rfl rfl

theorem take_inv (r : Requests) (i : Nat) (req' : Requests)
    (h : r.take = some (i, req')) :
    r.ready_pool = i :: req'.ready_pool ∧ req'.outstanding = r.outstanding := by
  unfold Requests.take at h
  split at h
  · exact absurd h (by simp)
  · rename_i j rest heq
    obtain ⟨rfl, rfl⟩ : j = i ∧ ({ r with ready_pool := rest } : Requests) = req' := by
      simpa using h
    exact ⟨heq, rfl⟩

theorem return_outstanding_inv (r : Requests) (i : Nat) (req' : Requests)
    (h : r.return_outstanding_to_ready i = some req') :
    i ∈ r.outstanding ∧
    req' = { ready_pool := r.ready_pool ++ [i],
             outstanding := r.outstanding.erase i } := by
  unfold Requests.return_outstanding_to_ready at h
  split at h
  · rename_i hmem
    obtain rfl : _ = req' := by simpa using h
    exact ⟨hmem, rfl⟩
  · exact absurd h (by simp)

theorem rstate_perm (nr : Nat) (s : RState) (h : RReachable nr s) :
    ((s.req.ready_pool ++ s.req.outstanding) ++ s.held).Perm (List.range nr) := by
  induction h with
  | refl => simp
  | @tail b c hsteps hstep ih =>
    cases hstep with
    | take i req' htake =>
      obtain ⟨hready, hout⟩ := take_inv _ _ _ htake
      rw [hready] at ih
      show ((req'.ready_pool ++ req'.outstanding) ++ (i :: b.held)).Perm (List.range nr)
      rw [hout]
      exact List.Perm.trans List.perm_middle ih
    | retInFlight i hmem =>
      refine List.Perm.trans ?_ ih
      show (((b.req.ready_pool ++ [i]) ++ b.req.outstanding) ++ b.held.erase i).Perm
        ((b.req.ready_pool ++ b.req.outstanding) ++ b.held)
      refine List.Perm.trans
        (((List.perm_append_singleton i b.req.ready_pool).append_right
            b.req.outstanding).append_right (b.held.erase i)) ?_
      refine List.Perm.trans List.perm_middle.symm ?_
      exact (List.perm_cons_erase hmem).symm.append_left _
    | moveOut i hmem =>
      refine List.Perm.trans ?_ ih
      show ((b.req.ready_pool ++ (b.req.outstanding ++ [i])) ++ b.held.erase i).Perm
        ((b.req.ready_pool ++ b.req.outstanding) ++ b.held)
      rw [← List.append_assoc]
      refine List.Perm.trans
        ((List.perm_append_singleton i
          (b.req.ready_pool ++ b.req.outstanding)).append_right (b.held.erase i)) ?_
      refine List.Perm.trans List.perm_middle.symm ?_
      exact (List.perm_cons_erase hmem).symm.append_left _
    | retOut i req' hret =>
      obtain ⟨hmem, rfl⟩ := return_outstanding_inv _ _ _ hret
      refine List.Perm.trans ?_ ih
      show (((b.req.ready_pool ++ [i]) ++ b.req.outstanding.erase i) ++ b.held).Perm
        ((b.req.ready_pool ++ b.req.outstanding) ++ b.held)
      refine List.Perm.append_right b.held ?_
      refine List.Perm.trans
        ((List.perm_append_singleton i b.req.ready_pool).append_right
          (b.req.outstanding.erase i)) ?_
      refine List.Perm.trans List.perm_middle.symm ?_
      exact ((List.perm_cons_erase hmem).symm.append_left _)

/-- C8: over any interleaving of `take_ready`, `return_in_flight_to_ready`,
`move_to_outstanding` and `return_outstanding_to_ready` starting from `nr`
fresh slots, the ready list, the outstanding list and the held slots
together always account for exactly the `nr` pool slots, and every slot sits
in exactly one of the three places. -/
theorem pool_slot_conservation (nr : Nat) (s : RState) (h : RReachable nr s) :
    s.req.ready_pool.length + s.req.outstanding.length + s.held.length = nr ∧
    ∀ i, i < nr →
      (i ∈ s.req.ready_pool ∧ i ∉ s.req.outstanding ∧ i ∉ s.held) ∨
      (i ∉ s.req.ready_pool ∧ i ∈ s.req.outstanding ∧ i ∉ s.held) ∨
      (i ∉ s.req.ready_pool ∧ i ∉ s.req.outstanding ∧ i ∈ s.held) := by
  have hperm := rstate_perm nr s h
  have hnd : ((s.req.ready_pool ++ s.req.outstanding) ++ s.held).Nodup :=
    hperm.symm.nodup (List.nodup_range nr)
  constructor
  · have hL := hperm.length_eq
    simpa [Nat.add_assoc] using hL
  · intro i hi
    have hmem : i ∈ (s.req.ready_pool ++ s.req.outstanding) ++ s.held :=
      hperm.symm.subset (List.mem_range.mpr hi)
    rw [List.nodup_append] at hnd
    obtain ⟨hnd12, hnd3, hdis123⟩ := hnd
    rw [List.nodup_append] at hnd12
    obtain ⟨hnd1, hnd2, hdis12⟩ := hnd12
    rcases List.mem_append.mp hmem with h12 | h3
    · rcases List.mem_append.mp h12 with h1 | h2
      · exact Or.inl ⟨h1, fun h2 => hdis12 h1 h2,
          fun h3 => hdis123 (List.mem_append.mpr (Or.inl h1)) h3⟩
      · exact Or.inr (Or.inl ⟨fun h1 => hdis12 h1 h2, h2,
          fun h3 => hdis123 (List.mem_append.mpr (Or.inr h2)) h3⟩)
    · refine Or.inr (Or.inr ⟨?_, ?_, h3⟩)
      · intro h1
        exact hdis123 (List.mem_append.mpr (Or.inl h1)) h3
      · intro h2
        exact hdis123 (List.mem_append.mpr (Or.inr h2)) h3

/-- Witness for C8 at the initial two-slot pool. -/
theorem pool_slot_conservation_witness :
    (⟨⟨List.range 2, []⟩, []⟩ : RState).req.ready_pool.length +
      (⟨⟨List.range 2, []⟩, []⟩ : RState).req.outstanding.length +
      (⟨⟨List.range 2, []⟩, []⟩ : RState).held.length = 2 :=
  (pool_slot_conservation 2 _ Relation.ReflTransGen.refl).1

theorem slotGet_replicate (n i : Nat) : slotGet (List.replicate n default) i = default := by
  unfold slotGet
  induction n generalizing i with
  | zero => rfl
  | succ m ih =>
    cases i with
    | zero => rfl
    | succ j => exact ih j

theorem protocol_inv_init (nr : Nat) (g : Bool) : ProtocolInv nr g (initState nr g) := by
  refine ⟨?_, ?_, ?_, ?_, ?_, ?_, ?_, ?_, ?_⟩
  · simp [initState]
  · intro i hi
    simpa [initState] using hi
  · intro i hi
    simp [initState] at hi
  · simpa [initState] using List.nodup_range nr
  · cases g <;> simp [initState]
  · intro p hp
    cases g <;> simp [initState] at hp ⊢
    omega
  · intro i hi
    simp only [initState]
    rw [slotGet_replicate]
    rfl
  · intro i hi
    simp [initState] at hi
  · intro i hi h1 h2
    exact absurd (by simpa [initState] using List.mem_range.mpr hi) h1

theorem protocol_inv_submit (nr : Nat) (g : Bool) (st : AioState) (hasBuf : Bool)
    (ret errno : Int)
    (hInv : ProtocolInv nr g st)
    (hgate : ∀ p, st.gate = some p → 0 < p) :
    ProtocolInv nr g (submit_request_phase st hasBuf ret errno).1 := by
  obtain ⟨len_eq, ready_lt, out_lt, nodup, gate_on, gate_count,
    ready_slot, out_slot, held_slot⟩ := hInv
  cases hready : st.req.ready_pool with
  | nil =>
    have ht := take_of_nil st.req hready
    have hgnone : st.gate = none := by
      cases hg : st.gate with
      | none => rfl
      | some p =>
        have h1 := gate_count p hg
        have h2 := hgate p hg
        rw [hready] at h1
        simp at h1
        omega
    have hs : (submit_request_phase st hasBuf ret errno).1 =
        { st with gate := st.gate.map (· - 1) } := by
      simp [submit_request_phase, ht]
    rw [hs, hgnone]
    refine ⟨len_eq, ready_lt, out_lt, nodup, ?_, ?_, ready_slot, out_slot, held_slot⟩
    · rw [hgnone] at gate_on
      exact gate_on
    · intro p hp
      exact absurd hp (by simp)
  | cons i rest =>
    have ht := take_of_cons st.req i rest hready
    have hi_lt : i < nr := ready_lt i (by rw [hready]; exact List.mem_cons_self i rest)
    have hi_len : i < st.slots.length := by rw [len_eq]; exact hi_lt
    have hnodup' : (i :: (rest ++ st.req.outstanding)).Nodup := by
      rw [hready] at nodup
      exact nodup
    obtain ⟨hinot, hnodup_ro⟩ := List.nodup_cons.mp hnodup'
    have hinotrest : i ∉ rest := fun h => hinot (List.mem_append.mpr (Or.inl h))
    have hinotout : i ∉ st.req.outstanding := fun h => hinot (List.mem_append.mpr (Or.inr h))
    by_cases hret : ret = 1
    · subst hret
      have hs : (submit_request_phase st hasBuf 1 errno).1 =
          { gate := st.gate.map (· - 1),
            req := { ready_pool := rest, outstanding := st.req.outstanding },
            slots := st.slots.set i
              { kernel := true, token := hasBuf, hasBuf := hasBuf,
                chan := ⟨true, false, none⟩ } } := by
        simp [submit_request_phase, ht]
      rw [hs]
      refine ⟨?_, ?_, ?_, ?_, ?_, ?_, ?_, ?_, ?_⟩
      · simp only [List.length_set]
        exact len_eq
      · intro j hj
        exact ready_lt j (by rw [hready]; exact List.mem_cons_of_mem i hj)
      · intro j hj
        exact out_lt j hj
      · exact hnodup_ro
      · rw [← gate_on]
        cases st.gate <;> rfl
      · intro p hp
        show p = rest.length
        cases hg : st.gate with
        | none => rw [hg] at hp; simp at hp
        | some q =>
          rw [hg] at hp
          simp only [Option.map_some', Option.some.injEq] at hp
          have h1 := gate_count q hg
          rw [hready] at h1
          simp at h1
          omega
      · intro j hj
        have hji : j ≠ i := fun e => hinotrest (e ▸ hj)
        rw [slotGet_set_ne _ _ _ _ (fun e => hji e.symm)]
        exact ready_slot j (by rw [hready]; exact List.mem_cons_of_mem i hj)
      · intro j hj
        have hji : j ≠ i := fun e => hinotout (e ▸ hj)
        rw [slotGet_set_ne _ _ _ _ (fun e => hji e.symm)]
        exact out_slot j hj
      · intro j hj hjr hjo
        by_cases hji : j = i
        · subst hji
          rw [slotGet_set_self _ _ _ hi_len]
          exact ⟨rfl, Or.inl ⟨rfl, rfl⟩⟩
        · rw [slotGet_set_ne _ _ _ _ (fun e => hji e.symm)]
          refine held_slot j hj ?_ hjo
          rw [hready]
          intro hmem
          rcases List.mem_cons.mp hmem with h | h
          · exact hji h
          · exact hjr h
    · have hs : (submit_request_phase st hasBuf ret errno).1 =
          { gate := (st.gate.map (· - 1)).map (· + 1),
            req := { ready_pool := rest ++ [i], outstanding := st.req.outstanding },
            slots := st.slots.set i
              { kernel := false, token := false, hasBuf := hasBuf,
                chan := ⟨true, true, none⟩ } } := by
        simp [submit_request_phase, ht, hret, Requests.return_in_flight_to_ready]
      rw [hs]
      refine ⟨?_, ?_, ?_, ?_, ?_, ?_, ?_, ?_, ?_⟩
      · simp only [List.length_set]
        exact len_eq
      · intro j hj
        rcases List.mem_append.mp hj with h | h
        · exact ready_lt j (by rw [hready]; exact List.mem_cons_of_mem i h)
        · rw [List.mem_singleton.mp h]
          exact hi_lt
      · intro j hj
        exact out_lt j hj
      · have hperm : (((i :: rest) ++ st.req.outstanding)).Perm
            ((rest ++ [i]) ++ st.req.outstanding) :=
          (List.perm_append_singleton i rest).symm.append_right st.req.outstanding
        refine hperm.nodup ?_
        rw [hready] at nodup
        exact nodup
      · rw [← gate_on]
        cases st.gate <;> rfl
      · intro p hp
        show p = (rest ++ [i]).length
        cases hg : st.gate with
        | none => rw [hg] at hp; simp at hp
        | some q =>
          rw [hg] at hp
          have hq := hgate q hg
          have h1 := gate_count q hg
          rw [hready] at h1
          simp only [Option.map_some', Option.some.injEq] at hp
          simp only [List.length_cons] at h1
          simp only [List.length_append, List.length_singleton]
          omega
      · intro j hj
        rcases List.mem_append.mp hj with h | h
        · have hji : j ≠ i := fun e => hinotrest (e ▸ h)
          rw [slotGet_set_ne _ _ _ _ (fun e => hji e.symm)]
          exact ready_slot j (by rw [hready]; exact List.mem_cons_of_mem i h)
        · rw [List.mem_singleton.mp h, slotGet_set_self _ _ _ hi_len]
      · intro j hj
        have hji : j ≠ i := fun e => hinotout (e ▸ hj)
        rw [slotGet_set_ne _ _ _ _ (fun e => hji e.symm)]
        exact out_slot j hj
      · intro j hj hjr hjo
        have hji : j ≠ i := fun e => hjr (by rw [e]; exact List.mem_append.mpr (Or.inr (List.mem_singleton.mpr rfl)))
        rw [slotGet_set_ne _ _ _ _ (fun e => hji e.symm)]
        refine held_slot j hj ?_ hjo
        rw [hready]
        intro hmem
        rcases List.mem_cons.mp hmem with h | h
        · exact hji h
        · exact hjr (List.mem_append.mpr (Or.inl h))

theorem protocol_inv_harvest (nr : Nat) (g : Bool) (st : AioState) (i : Nat) (res : Int)
    (hInv : ProtocolInv nr g st)
    (hi : i < st.slots.length)
    (hk : (slotGet st.slots i).kernel = true) :
    ProtocolInv nr g (completion_loop_event st i res) := by
  obtain ⟨len_eq, ready_lt, out_lt, nodup, gate_on, gate_count,
    ready_slot, out_slot, held_slot⟩ := hInv
  have hi_nr : i < nr := len_eq ▸ hi
  have hdis : st.req.ready_pool.Disjoint st.req.outstanding :=
    List.disjoint_of_nodup_append nodup
  obtain ⟨hnr, hno, -⟩ := List.nodup_append.mp nodup
  by_cases hcomp : (slotGet st.slots i).chan.complete
  · have hmem : i ∈ st.req.outstanding := by
      by_cases h1 : i ∈ st.req.ready_pool
      · have h2 := ready_slot i h1
        rw [hk] at h2
        simp at h2
      · by_contra h2
        obtain ⟨-, hcase⟩ := held_slot i hi_nr h1 h2
        rcases hcase with ⟨-, hchan⟩ | ⟨hker, -⟩
        · rw [hchan] at hcomp
          simp at hcomp
        · rw [hk] at hker
          simp at hker
    have hretOut : st.req.return_outstanding_to_ready i =
        some { ready_pool := st.req.ready_pool ++ [i],
               outstanding := st.req.outstanding.erase i } := by
      simp [Requests.return_outstanding_to_ready, hmem]
    have hs : completion_loop_event st i res =
        { gate := st.gate.map (· + 1),
          req := { ready_pool := st.req.ready_pool ++ [i],
                   outstanding := st.req.outstanding.erase i },
          slots := st.slots.set i
            { slotGet st.slots i with
                kernel := false,
                chan := { (slotGet st.slots i).chan with txAlive := false },
                token := false } } := by
      simp [completion_loop_event, Oneshot.send, hcomp, hretOut]
    rw [hs]
    refine ⟨?_, ?_, ?_, ?_, ?_, ?_, ?_, ?_, ?_⟩
    · simp only [List.length_set]
      exact len_eq
    · intro j hj
      rcases List.mem_append.mp hj with h | h
      · exact ready_lt j h
      · rw [List.mem_singleton.mp h]
        exact hi_nr
    · intro j hj
      exact out_lt j (List.mem_of_mem_erase hj)
    · have h1 : (st.req.ready_pool ++ st.req.outstanding).Perm
          ((st.req.ready_pool ++ [i]) ++ st.req.outstanding.erase i) := by
        refine List.Perm.trans
          (List.Perm.append_left st.req.ready_pool (List.perm_cons_erase hmem)) ?_
        refine List.Perm.trans List.perm_middle ?_
        exact (List.perm_append_singleton i st.req.ready_pool).symm.append_right _
      exact h1.nodup nodup
    · rw [← gate_on]
      cases st.gate <;> rfl
    · intro p hp
      show p = (st.req.ready_pool ++ [i]).length
      cases hg : st.gate with
      | none => rw [hg] at hp; simp at hp
      | some q =>
        rw [hg] at hp
        simp only [Option.map_some', Option.some.injEq] at hp
        have h1 := gate_count q hg
        simp only [List.length_append, List.length_singleton]
        omega
    · intro j hj
      rcases List.mem_append.mp hj with h | h
      · have hji : j ≠ i := fun e => hdis (e ▸ h) hmem
        rw [slotGet_set_ne _ _ _ _ (fun e => hji e.symm)]
        exact ready_slot j h
      · rw [List.mem_singleton.mp h, slotGet_set_self _ _ _ hi]
    · intro j hj
      have hji : j ≠ i := (hno.mem_erase_iff.mp hj).1
      rw [slotGet_set_ne _ _ _ _ (fun e => hji e.symm)]
      exact out_slot j (List.mem_of_mem_erase hj)
    · intro j hj hjr hjo
      have hji : j ≠ i := fun e =>
        hjr (by rw [e]; exact List.mem_append.mpr (Or.inr (List.mem_singleton.mpr rfl)))
      rw [slotGet_set_ne _ _ _ _ (fun e => hji e.symm)]
      refine held_slot j hj (fun h => hjr (List.mem_append.mpr (Or.inl h))) ?_
      intro h
      exact hjo ((List.mem_erase_of_ne hji).mpr h)
  · have hr : i ∉ st.req.ready_pool := by
      intro h
      have h1 := ready_slot i h
      rw [hk] at h1
      simp at h1
    have ho : i ∉ st.req.outstanding := by
      intro h
      obtain ⟨-, hchan, -⟩ := out_slot i h
      rw [hchan] at hcomp
      simp at hcomp
    obtain ⟨htok, hcase⟩ := held_slot i hi_nr hr ho
    have hs : completion_loop_event st i res =
        { st with
            slots := st.slots.set i
              { slotGet st.slots i with
                  kernel := false,
                  chan := { (slotGet st.slots i).chan with
                              txAlive := false,
                              complete := true,
                              value := some res } } } := by
      simp [completion_loop_event, Oneshot.send, hcomp]
    rw [hs]
    refine ⟨?_, ready_lt, out_lt, nodup, gate_on, gate_count, ?_, ?_, ?_⟩
    · simp only [List.length_set]
      exact len_eq
    · intro j hj
      have hji : j ≠ i := fun e => hr (e ▸ hj)
      rw [slotGet_set_ne _ _ _ _ (fun e => hji e.symm)]
      exact ready_slot j hj
    · intro j hj
      have hji : j ≠ i := fun e => ho (e ▸ hj)
      rw [slotGet_set_ne _ _ _ _ (fun e => hji e.symm)]
      exact out_slot j hj
    · intro j hj hjr hjo
      by_cases hji : j = i
      · subst hji
        rw [slotGet_set_self _ _ _ hi]
        exact ⟨htok, Or.inr ⟨rfl, rfl, rfl, rfl⟩⟩
      · rw [slotGet_set_ne _ _ _ _ (fun e => hji e.symm)]
        exact held_slot j hj hjr hjo

theorem protocol_inv_resolve (nr : Nat) (g : Bool) (st : AioState) (i : Nat)
    (hInv : ProtocolInv nr g st)
    (hi : i < st.slots.length)
    (hr : i ∉ st.req.ready_pool) (ho : i ∉ st.req.outstanding) :
    ProtocolInv nr g (AioWaitFuture.pollResolve st i) := by
  obtain ⟨len_eq, ready_lt, out_lt, nodup, gate_on, gate_count,
    ready_slot, out_slot, held_slot⟩ := hInv
  have hi_nr : i < nr := len_eq ▸ hi
  cases hval : (slotGet st.slots i).chan.value with
  | none =>
    have hs : AioWaitFuture.pollResolve st i = st := by
      simp [AioWaitFuture.pollResolve, hval]
    rw [hs]
    exact ⟨len_eq, ready_lt, out_lt, nodup, gate_on, gate_count,
      ready_slot, out_slot, held_slot⟩
  | some v =>
    obtain ⟨htok, hcase⟩ := held_slot i hi_nr hr ho
    have hker : (slotGet st.slots i).kernel = false := by
      rcases hcase with ⟨-, hchan⟩ | ⟨h, -⟩
      · rw [hchan] at hval
        simp at hval
      · exact h
    have hs : AioWaitFuture.pollResolve st i =
        { gate := st.gate.map (· + 1),
          req := { ready_pool := st.req.ready_pool ++ [i],
                   outstanding := st.req.outstanding },
          slots := st.slots.set i
            { slotGet st.slots i with
                chan := { (slotGet st.slots i).chan with value := none },
                token := false } } := by
      simp [AioWaitFuture.pollResolve, hval, Requests.return_in_flight_to_ready]
    rw [hs]
    refine ⟨?_, ?_, ?_, ?_, ?_, ?_, ?_, ?_, ?_⟩
    · simp only [List.length_set]
      exact len_eq
    · intro j hj
      rcases List.mem_append.mp hj with h | h
      · exact ready_lt j h
      · rw [List.mem_singleton.mp h]
        exact hi_nr
    · intro j hj
      exact out_lt j hj
    · have h1 : (i :: (st.req.ready_pool ++ st.req.outstanding)).Nodup :=
        List.nodup_cons.mpr
          ⟨fun h => (List.mem_append.mp h).elim (fun h => hr h) (fun h => ho h), nodup⟩
      exact ((List.perm_append_singleton i st.req.ready_pool).symm.append_right
        st.req.outstanding).nodup h1
    · rw [← gate_on]
      cases st.gate <;> rfl
    · intro p hp
      show p = (st.req.ready_pool ++ [i]).length
      cases hg : st.gate with
      | none => rw [hg] at hp; simp at hp
      | some q =>
        rw [hg] at hp
        simp only [Option.map_some', Option.some.injEq] at hp
        have h1 := gate_count q hg
        simp only [List.length_append, List.length_singleton]
        omega
    · intro j hj
      rcases List.mem_append.mp hj with h | h
      · have hji : j ≠ i := fun e => hr (e ▸ h)
        rw [slotGet_set_ne _ _ _ _ (fun e => hji e.symm)]
        exact ready_slot j h
      · rw [List.mem_singleton.mp h, slotGet_set_self _ _ _ hi]
        exact hker
    · intro j hj
      have hji : j ≠ i := fun e => ho (e ▸ hj)
      rw [slotGet_set_ne _ _ _ _ (fun e => hji e.symm)]
      exact out_slot j hj
    · intro j hj hjr hjo
      have hji : j ≠ i := fun e =>
        hjr (by rw [e]; exact List.mem_append.mpr (Or.inr (List.mem_singleton.mpr rfl)))
      rw [slotGet_set_ne _ _ _ _ (fun e => hji e.symm)]
      exact held_slot j hj (fun h => hjr (List.mem_append.mpr (Or.inl h))) hjo

theorem protocol_inv_drop (nr : Nat) (g : Bool) (st : AioState) (i : Nat)
    (hInv : ProtocolInv nr g st)
    (hi : i < st.slots.length)
    (hr : i ∉ st.req.ready_pool) (ho : i ∉ st.req.outstanding) :
    ProtocolInv nr g (AioWaitFuture.dropPending st i) := by
  obtain ⟨len_eq, ready_lt, out_lt, nodup, gate_on, gate_count,
    ready_slot, out_slot, held_slot⟩ := hInv
  have hi_nr : i < nr := len_eq ▸ hi
  obtain ⟨htok, hcase⟩ := held_slot i hi_nr hr ho
  by_cases hv : (slotGet st.slots i).chan.value.isSome
  · obtain ⟨v, hval⟩ := Option.isSome_iff_exists.mp hv
    have hker : (slotGet st.slots i).kernel = false := by
      rcases hcase with ⟨-, hchan⟩ | ⟨h, -⟩
      · rw [hchan] at hval
        simp at hval
      · exact h
    have hs : AioWaitFuture.dropPending st i =
        { gate := st.gate.map (· + 1),
          req := { ready_pool := st.req.ready_pool ++ [i],
                   outstanding := st.req.outstanding },
          slots := st.slots.set i
            { slotGet st.slots i with
                chan := { (slotGet st.slots i).chan.close with value := none },
                token := false } } := by
      simp [AioWaitFuture.dropPending, Oneshot.tryRecvIsOk, Oneshot.close, hval,
        Requests.return_in_flight_to_ready]
    rw [hs]
    refine ⟨?_, ?_, ?_, ?_, ?_, ?_, ?_, ?_, ?_⟩
    · simp only [List.length_set]
      exact len_eq
    · intro j hj
      rcases List.mem_append.mp hj with h | h
      · exact ready_lt j h
      · rw [List.mem_singleton.mp h]
        exact hi_nr
    · intro j hj
      exact out_lt j hj
    · have h1 : (i :: (st.req.ready_pool ++ st.req.outstanding)).Nodup :=
        List.nodup_cons.mpr
          ⟨fun h => (List.mem_append.mp h).elim (fun h => hr h) (fun h => ho h), nodup⟩
      exact ((List.perm_append_singleton i st.req.ready_pool).symm.append_right
        st.req.outstanding).nodup h1
    · rw [← gate_on]
      cases st.gate <;> rfl
    · intro p hp
      show p = (st.req.ready_pool ++ [i]).length
      cases hg : st.gate with
      | none => rw [hg] at hp; simp at hp
      | some q =>
        rw [hg] at hp
        simp only [Option.map_some', Option.some.injEq] at hp
        have h1 := gate_count q hg
        simp only [List.length_append, List.length_singleton]
        omega
    · intro j hj
      rcases List.mem_append.mp hj with h | h
      · have hji : j ≠ i := fun e => hr (e ▸ h)
        rw [slotGet_set_ne _ _ _ _ (fun e => hji e.symm)]
        exact ready_slot j h
      · rw [List.mem_singleton.mp h, slotGet_set_self _ _ _ hi]
        exact hker
    · intro j hj
      have hji : j ≠ i := fun e => ho (e ▸ hj)
      rw [slotGet_set_ne _ _ _ _ (fun e => hji e.symm)]
      exact out_slot j hj
    · intro j hj hjr hjo
      have hji : j ≠ i := fun e =>
        hjr (by rw [e]; exact List.mem_append.mpr (Or.inr (List.mem_singleton.mpr rfl)))
      rw [slotGet_set_ne _ _ _ _ (fun e => hji e.symm)]
      exact held_slot j hj (fun h => hjr (List.mem_append.mpr (Or.inl h))) hjo
  · have hvn : (slotGet st.slots i).chan.value = none :=
      Option.not_isSome_iff_eq_none.mp hv
    have hker : (slotGet st.slots i).kernel = true := by
      rcases hcase with ⟨h, -⟩ | ⟨-, -, -, hsome⟩
      · exact h
      · rw [hvn] at hsome
        simp at hsome
    have hchan : (slotGet st.slots i).chan = ⟨true, false, none⟩ := by
      rcases hcase with ⟨-, h⟩ | ⟨-, -, -, hsome⟩
      · exact h
      · rw [hvn] at hsome
        simp at hsome
    have hs : AioWaitFuture.dropPending st i =
        { gate := st.gate,
          req := { ready_pool := st.req.ready_pool,
                   outstanding := st.req.outstanding ++ [i] },
          slots := st.slots.set i
            { slotGet st.slots i with
                chan := (slotGet st.slots i).chan.close } } := by
      simp [AioWaitFuture.dropPending, Oneshot.tryRecvIsOk, Oneshot.close, hvn,
        Requests.move_to_outstanding]
    rw [hs]
    refine ⟨?_, ?_, ?_, ?_, gate_on, gate_count, ?_, ?_, ?_⟩
    · simp only [List.length_set]
      exact len_eq
    · intro j hj
      exact ready_lt j hj
    · intro j hj
      rcases List.mem_append.mp hj with h | h
      · exact out_lt j h
      · rw [List.mem_singleton.mp h]
        exact hi_nr
    · have h1 : (i :: (st.req.ready_pool ++ st.req.outstanding)).Nodup :=
        List.nodup_cons.mpr
          ⟨fun h => (List.mem_append.mp h).elim (fun h => hr h) (fun h => ho h), nodup⟩
      have h2 := (List.perm_append_singleton i
        (st.req.ready_pool ++ st.req.outstanding)).symm.nodup h1
      rw [List.append_assoc] at h2
      exact h2
    · intro j hj
      have hji : j ≠ i := fun e => hr (e ▸ hj)
      rw [slotGet_set_ne _ _ _ _ (fun e => hji e.symm)]
      exact ready_slot j hj
    · intro j hj
      rcases List.mem_append.mp hj with h | h
      · have hji : j ≠ i := fun e => ho (e ▸ h)
        rw [slotGet_set_ne _ _ _ _ (fun e => hji e.symm)]
        exact out_slot j h
      · rw [List.mem_singleton.mp h, slotGet_set_self _ _ _ hi]
        refine ⟨hker, ?_, htok⟩
        rw [Oneshot.close, hchan]
    · intro j hj hjr hjo
      have hji : j ≠ i := fun e =>
        hjo (by rw [e]; exact List.mem_append.mpr (Or.inr (List.mem_singleton.mpr rfl)))
      rw [slotGet_set_ne _ _ _ _ (fun e => hji e.symm)]
      exact held_slot j hj hjr (fun h => hjo (List.mem_append.mpr (Or.inl h)))

theorem protocol_inv_step (nr : Nat) (g : Bool) (st st' : AioState)
    (hInv : ProtocolInv nr g st) (h : Step st st') : ProtocolInv nr g st' := by
  cases h with
  | submitOk hasBuf hgate =>
    exact protocol_inv_submit nr g st hasBuf 1 0 hInv hgate
  | submitFail hasBuf ret errno hret hgate =>
    exact protocol_inv_submit nr g st hasBuf ret errno hInv hgate
  | harvest i res hi hk =>
    exact protocol_inv_harvest nr g st i res hInv hi hk
  | resolveOk i hi hr ho =>
    exact protocol_inv_resolve nr g st i hInv hi hr ho
  | cancelDrop i hi hr ho =>
    exact protocol_inv_drop nr g st i hInv hi hr ho

theorem protocol_inv_reachable (nr : Nat) (g : Bool) (st : AioState)
    (h : Reachable nr g st) : ProtocolInv nr g st := by
  induction h with
  | refl => exact protocol_inv_init nr g
  | @tail b c hsteps hstep ih => exact protocol_inv_step nr g b c ih hstep

/-- C2: in every state reachable by submissions, cancellations and
completions, the two pool lists never repeat or share a slot (no leak, no
double free), a slot on the ready list is never one the kernel still holds,
and a slot the kernel holds (submitted, event not yet harvested) still
carries its buffer-lifetime token whenever the submitted command had a
buffer. -/
theorem slot_lifecycle_safety (nr : Nat) (g : Bool) (st : AioState)
    (h : Reachable nr g st) :
    st.slots.length = nr ∧
    (st.req.ready_pool ++ st.req.outstanding).Nodup ∧
    ∀ i, i < nr →
      ¬(i ∈ st.req.ready_pool ∧ i ∈ st.req.outstanding) ∧
      (i ∈ st.req.ready_pool → (slotGet st.slots i).kernel = false) ∧
      ((slotGet st.slots i).kernel = true →
        (slotGet st.slots i).token = (slotGet st.slots i).hasBuf) := by
  have inv := protocol_inv_reachable nr g st h
  refine ⟨inv.len_eq, inv.nodup, ?_⟩
  intro i hi
  refine ⟨?_, fun hm => inv.ready_slot i hm, ?_⟩
  · intro hboth
    exact (List.disjoint_of_nodup_append inv.nodup) hboth.1 hboth.2
  · intro hk
    by_cases h1 : i ∈ st.req.ready_pool
    · rw [inv.ready_slot i h1] at hk
      simp at hk
    · by_cases h2 : i ∈ st.req.outstanding
      · exact (inv.out_slot i h2).2.2
      · exact (inv.held_slot i hi h1 h2).1

/-- Witness for C2 at the freshly created two-slot context. -/
theorem slot_lifecycle_safety_witness :
    (initState 2 true).slots.length = 2 :=
  (slot_lifecycle_safety 2 true _ Relation.ReflTransGen.refl).1

/-- C3: with the capacity gate enabled, the permit count never exceeds the
pool size, and whenever no operation is in flight (every slot is back on the
ready list) `available_slots` on the live context reports exactly the pool
size: every acquired permit has been released. -/
theorem gate_permit_conservation (nr : Nat) (st : AioState)
    (h : Reachable nr true st) :
    (∀ p, st.gate = some p → p ≤ nr) ∧
    ((∀ i, i < nr → i ∈ st.req.ready_pool) →
      GenericAioContextHandle.available_slots (some st) = some nr) := by
  have inv := protocol_inv_reachable nr true st h
  have hnd : st.req.ready_pool.Nodup := (List.nodup_append.mp inv.nodup).1
  have hsub : st.req.ready_pool ⊆ List.range nr := fun j hj =>
    List.mem_range.mpr (inv.ready_lt j hj)
  have hle1 : st.req.ready_pool.length ≤ nr := by
    have h1 := (List.subperm_of_subset hnd hsub).length_le
    rwa [List.length_range] at h1
  constructor
  · intro p hp
    have h1 := inv.gate_count p hp
    omega
  · intro hall
    obtain ⟨p, hp⟩ : ∃ p, st.gate = some p := by
      cases hg : st.gate with
      | none =>
        have h1 := inv.gate_on
        rw [hg] at h1
        simp at h1
      | some p => exact ⟨p, rfl⟩
    have h1 := inv.gate_count p hp
    have hsub2 : List.range nr ⊆ st.req.ready_pool := fun j hj =>
      hall j (List.mem_range.mp hj)
    have hle2 : nr ≤ st.req.ready_pool.length := by
      have h2 := (List.subperm_of_subset (List.nodup_range nr) hsub2).length_le
      rwa [List.length_range] at h2
    show GenericAioContextHandle.available_slots (some st) = some nr
    simp [GenericAioContextHandle.available_slots, hp]
    omega

/-- Witness for C3 at the freshly created two-slot gated context. -/
theorem gate_permit_conservation_witness :
    GenericAioContextHandle.available_slots (some (initState 2 true)) = some 2 :=
  (gate_permit_conservation 2 _ Relation.ReflTransGen.refl).2 (by decide)
